import Mathlib

set_option maxHeartbeats 1000000

set_option maxRecDepth 100000

deriving instance DecidableEq for Except

namespace Huffman

/-! Shallow embedding of `src/huffman.js` (class `Huffman`).

Byte buffers are `List Nat` (entries of a JS `Buffer` are 0..255).  Bitcodes,
which the source keeps as strings of the characters 0 and 1, are `List Nat`
of bits.  The shared mutable fields of the JS object (`bytesRemaining`,
`bitsRemaining`, `bits`, the output array) become explicit state records.
The records carry ghost counters (`consumed`, `written`) that only observe
how many `readBit` / `writeBit` calls happened; no branch reads them. -/

inductive HTree where
  | leaf (value : Nat) (eob : Bool)
  | node (l r : HTree)
deriving DecidableEq, Repr

structure ReaderState where
  bytesRemaining : Int
  bitsRemaining : Int
  bits : Nat
  consumed : Nat
deriving DecidableEq, Repr

/-- `clear()` (src/huffman.js:11-22), read-side fields. -/
def clearReader : ReaderState := ⟨-1, -1, 0, 0⟩

/-- JS `input[i]` out of range yields `undefined`; the only uses of the
fetched byte are `(bits >> 7) & 1` and `bits <<= 1`, and on those operations
`undefined` behaves exactly like `0`, so the fetch is modelled as `0` when
out of range. -/
def getByte (input : List Nat) (i : Int) : Nat :=
  if 0 ≤ i then input.getD i.toNat 0 else 0

/-- `readBitAvailable(input)` (src/huffman.js:27-35). -/
def readBitAvailable (input : List Nat) (s : ReaderState) : Bool :=
  if 0 < s.bitsRemaining then true
  else if s.bytesRemaining == -1 then decide (0 < input.length)
  else decide (0 < s.bytesRemaining)

/-- The guard in `readBit` (src/huffman.js:42) tests
`input.bytesRemaining == 0`.  `input` is a Node `Buffer`, which has no
`bytesRemaining` property, so the test compares `undefined == 0`, which is
false in JS: the `throw "Ran out of data!"` branch is unreachable. -/
def inputBytesRemainingIsZero (_input : List Nat) : Bool := false

/-- `readBit(input)` (src/huffman.js:37-54), plus the ghost `consumed`. -/
def readBit (input : List Nat) (s : ReaderState) :
    Except String (Nat × ReaderState) := do
  let s ←
    if s.bitsRemaining < 1 then
      let byr : Int := if s.bytesRemaining < 0 then input.length else s.bytesRemaining
      if inputBytesRemainingIsZero input then
        Except.error "Ran out of data!"
      else
        pure { s with bits := getByte input ((input.length : Int) - byr),
                      bytesRemaining := byr - 1,
                      bitsRemaining := 8 }
    else
      pure s
  let bit := (s.bits >>> 7) &&& 1
  Except.ok (bit, { s with bits := s.bits <<< 1,
                           bitsRemaining := s.bitsRemaining - 1,
                           consumed := s.consumed + 1 })

def readUIntGo (input : List Nat) : Nat → Nat → ReaderState →
    Except String (Nat × ReaderState)
  | 0, v, s => Except.ok (v, s)
  | n + 1, v, s => do
      let (b, s') ← readBit input s
      readUIntGo input n ((v <<< 1) ||| b) s'

/-- `readUInt(input, bitCount)` (src/huffman.js:56-62). -/
def readUInt (input : List Nat) (bitCount : Nat) (s : ReaderState) :
    Except String (Nat × ReaderState) :=
  readUIntGo input bitCount 0 s

structure WriterState where
  out : List Nat
  bitsRemaining : Int
  bits : Nat
  written : Nat
deriving DecidableEq, Repr

/-- `clear()` (src/huffman.js:11-22), write-side fields. -/
def clearWriter : WriterState := ⟨[], -1, 0, 0⟩

/-- `writeBit(output, v)` (src/huffman.js:64-75), plus the ghost `written`. -/
def writeBit (s : WriterState) (v : Nat) : WriterState :=
  let s :=
    if s.bitsRemaining < 1 then
      { s with out := if s.bitsRemaining == 0 then s.out ++ [s.bits] else s.out,
               bits := 0, bitsRemaining := 8 }
    else s
  { s with bits := (s.bits <<< 1) ||| (v &&& 1),
           bitsRemaining := s.bitsRemaining - 1,
           written := s.written + 1 }

/-- `writeUInt(output, v, bitCount)` (src/huffman.js:77-82). -/
def writeUInt (s : WriterState) (v : Nat) (bitCount : Nat) : WriterState :=
  (List.range bitCount).foldl (fun s i => writeBit s ((v >>> (bitCount - 1 - i)) &&& 1)) s

/-- `writeCode(output, code)` (src/huffman.js:84-89); the string of 0/1
characters is its list of bits, and `writeBit` is applied to each in order. -/
def writeCode (s : WriterState) (code : List Nat) : WriterState :=
  code.foldl writeBit s

/-- `writeFinish(output)` (src/huffman.js:91-99).  Note the guard: a pending
byte is flushed only when `bitsRemaining > 0`; with `bitsRemaining == 0`
(a complete, not yet pushed byte) nothing is emitted. -/
def writeFinish (s : WriterState) : WriterState :=
  if 0 < s.bitsRemaining then
    { s with out := s.out ++ [s.bits <<< s.bitsRemaining.toNat],
             bits := 0, bitsRemaining := 0 }
  else s

/-- The occurrence map of `generateTree` (src/huffman.js:130-142) is a plain
JS object keyed by the numeric byte value.  ECMAScript enumerates the
integer-like keys of an object in ascending numeric order
(OrdinaryOwnPropertyKeys), not in insertion order, so
`Object.values(occurrenceMap)` yields the distinct bytes in ascending value
order.  The object is modelled as an association list kept sorted by key;
`omBump` performs one `occurrenceMap[byte].count += 1` update, creating the
entry (at its key-ordered position) when absent. -/
def omBump : List (Nat × Nat) → Nat → List (Nat × Nat)
  | [], b => [(b, 1)]
  | (k, c) :: rest, b =>
      if b = k then (k, c + 1) :: rest
      else if b < k then (b, 1) :: (k, c) :: rest
      else (k, c) :: omBump rest b

def occMap (data : List Nat) : List (Nat × Nat) :=
  data.foldl omBump []

structure Entry where
  tree : HTree
  count : Nat
deriving DecidableEq, Repr

/-- `occurrences` right before the merge loop (src/huffman.js:144-150):
the byte entries followed by the pushed synthetic End-Of-Block entry
(`value: 0, count: 0, eob: true`). -/
def initialEntries (data : List Nat) : List Entry :=
  (occMap data).map (fun p => ⟨HTree.leaf p.1 false, p.2⟩) ++ [⟨HTree.leaf 0 true, 0⟩]

/-- `occurrences.sort((a, b) => a.count - b.count)` (src/huffman.js:154).
`Array.prototype.sort` is specified to be stable (ES2019), and the stable
ascending reordering of a list is unique, so this stable insertion sort
computes exactly it. -/
def insEntry (e : Entry) : List Entry → List Entry
  | [] => [e]
  | x :: xs => if e.count ≤ x.count then e :: x :: xs else x :: insEntry e xs

def sortEntries (l : List Entry) : List Entry :=
  l.foldr insEntry []

/-- One iteration of the merge loop (src/huffman.js:153-164): sort, shift the
two smallest entries (`r` first, then `l`), push an internal node with
`l: l`, `r: r`, `count: l.count + r.count`. -/
def buildStep (l : List Entry) : List Entry :=
  match sortEntries l with
  | r :: lft :: rest => rest ++ [⟨HTree.node lft.tree r.tree, lft.count + r.count⟩]
  | other => other

def buildLoop : Nat → List Entry → List Entry
  | 0, l => l
  | fuel + 1, l => if 1 < l.length then buildLoop fuel (buildStep l) else l

/-- `generateTree(data)` (src/huffman.js:128-168): run the merge loop, then
`this.root = occurrences.pop()` (the last element).  Each iteration removes
two entries and appends one, so `occ.length` units of fuel always suffice,
and the list is never empty (the EOB entry is always pushed), so the
`.getLast?` fallback is unreachable. -/
def generateTree (data : List Nat) : HTree :=
  let occ := initialEntries data
  match (buildLoop occ.length occ).getLast? with
  | some e => e.tree
  | none => HTree.leaf 0 false

/-- JS object assignment `this.table[node.value] = code`: a later assignment
overwrites an earlier one, so lookup returns the last binding. -/
def tableGet (t : List (Nat × List Nat)) (k : Nat) : Option (List Nat) :=
  t.foldl (fun acc p => if p.1 = k then some p.2 else acc) none

/-- `generateTableRecurse(node, code)` (src/huffman.js:104-121), threading
the `this.table` / `this.eob` pair through the pre-order walk.  An empty
accumulated code (root is a leaf) falls back to the literal one-bit code. -/
def genTableGo : HTree → List Nat → List (Nat × List Nat) × Option (List Nat) →
    List (Nat × List Nat) × Option (List Nat)
  | HTree.node lt rt, code, acc =>
      genTableGo rt (code ++ [1]) (genTableGo lt (code ++ [0]) acc)
  | HTree.leaf v e, code, acc =>
      let code := if code = [] then [0] else code
      if e then (acc.1, some code) else (acc.1 ++ [(v, code)], acc.2)

/-- `generateTable()` (src/huffman.js:123-126) applied to a tree: the
value-to-code table and the EOB code. -/
def generateTable (root : HTree) : List (Nat × List Nat) × Option (List Nat) :=
  genTableGo root [] ([], none)

/-- `writeTreeRecurse(output, node)` (src/huffman.js:173-189): returns the
new writer state and the bit count the source reports. -/
def writeTreeRecurse : WriterState → HTree → WriterState × Nat
  | s, HTree.node lt rt =>
      let s := writeBit s 0
      let p := writeTreeRecurse s lt
      let q := writeTreeRecurse p.1 rt
      (q.1, 1 + p.2 + q.2)
  | s, HTree.leaf v e =>
      let s := writeBit s 1
      let s := writeBit s (if e then 1 else 0)
      let s := writeUInt s v 8
      (s, 1 + 1 + 8)

/-- `readTreeRecurse(input)` (src/huffman.js:195-220).  The source has no
recursion guard; exhausting the JS call stack raises, which the fuel running
out models.  A leaf read with a zero eob bit carries `eob` absent, which is
falsy, i.e. the same as `false`. -/
def readTreeRecurse (input : List Nat) : Nat → ReaderState →
    Except String (HTree × ReaderState)
  | 0, _ => Except.error "stack overflow"
  | fuel + 1, s => do
      let (which, s) ← readBit input s
      if which == 0 then do
        let (lt, s) ← readTreeRecurse input fuel s
        let (rt, s) ← readTreeRecurse input fuel s
        Except.ok (HTree.node lt rt, s)
      else do
        let (e, s) ← readBit input s
        let (v, s) ← readUInt input 8 s
        Except.ok (HTree.leaf v (e == 1), s)

structure EncodeOut where
  payload : List Nat
  treeBits : Nat
  dataBits : Nat
  bitsWritten : Nat
deriving DecidableEq, Repr

/-- `encode(data)` (src/huffman.js:229-250).  `clear()` zeroes `dataBits`
and nothing in `encode` of src/huffman.js ever updates it afterwards, so the
field stays `0`.  Every byte of `data` has a code in the generated table and
the generated tree always has an EOB leaf, so the `getD []` defaults are
never taken on this path.  `bitsWritten` is the ghost `written` counter of
the final writer state. -/
def encodeFull (data : List Nat) : EncodeOut :=
  let root := generateTree data
  let tabEob := generateTable root
  let p := writeTreeRecurse clearWriter root
  let s := data.foldl (fun s b => writeCode s ((tableGet tabEob.1 b).getD [])) p.1
  let s := writeCode s (tabEob.2.getD [])
  let s := writeFinish s
  ⟨s.out, p.2, 0, s.written⟩

def encode (data : List Nat) : List Nat :=
  (encodeFull data).payload

def isEob : HTree → Bool
  | HTree.leaf _ e => e
  | HTree.node _ _ => false

/-- The decode loop (src/huffman.js:264-284).  `bit == '0'` in JS compares
the numeric bit against a character: `0 == '0'` is true, `1 == '0'` is
false, so the test is `bit = 0`.  The loop always terminates in JS; the fuel
(one unit per iteration) is only an artifact of totality. -/
def decodeLoopGo (input : List Nat) (root : HTree) : Nat → ReaderState → HTree →
    List Nat → Except String (List Nat × ReaderState)
  | 0, _, _, _ => Except.error "fuel"
  | fuel + 1, s, n, out =>
      if readBitAvailable input s then do
        let (bit, s) ← readBit input s
        let n := match n with
          | HTree.node lt rt => if bit = 0 then lt else rt
          | other => other
        if isEob n then Except.ok (out, s)
        else
          match n with
          | HTree.node _ _ => decodeLoopGo input root fuel s n out
          | HTree.leaf v _ => decodeLoopGo input root fuel s root (out ++ [v])
      else Except.ok (out, s)

/-- `decode(payload)` (src/huffman.js:255-287), exposing the final reader
state (for the ghost `consumed` counter). -/
def decodeFull (fuel : Nat) (payload : List Nat) :
    Except String (List Nat × ReaderState) := do
  let (root, s) ← readTreeRecurse payload fuel clearReader
  decodeLoopGo payload root fuel s root []

def decode (fuel : Nat) (payload : List Nat) : Except String (List Nat) :=
  (decodeFull fuel payload).map (fun r => r.1)

/-- Number of data-section bits that the payload for `data` should carry:
the code lengths of the bytes of `data`, plus the EOB code length. -/
def dataCodeBits (data : List Nat) : Nat :=
  let root := generateTree data
  let tabEob := generateTable root
  (data.map (fun b => ((tableGet tabEob.1 b).getD []).length)).sum
    + (tabEob.2.getD []).length

/-! ### Specification-side notions used to state the claims -/

/-- `a` is an initial segment of `b` ("a is a prefix of b" on bitcodes). -/
def isInitSeg : List Nat → List Nat → Bool
  | [], _ => true
  | x :: xs, ys =>
      match ys with
      | [] => false
      | y :: ys => x == y && isInitSeg xs ys

/-- Follows the spec text of §4.2 word for word: `(value, count)` pairs in
first-occurrence order of the distinct byte values, with the synthetic
count-0 EOB entry appended last.  Used only to state the refuted reading of
C4 against the code's `initialEntries`. -/
def firstOccurrenceEntries (data : List Nat) : List Entry :=
  ((data.foldl (fun acc b => if b ∈ acc then acc else acc ++ [b]) []).map
    (fun b => ⟨HTree.leaf b false, data.count b⟩)) ++ [⟨HTree.leaf 0 true, 0⟩]

/-- Count held by the modelled occurrence-map object for key `b`. -/
def omCnt : List (Nat × Nat) → Nat → Nat
  | [], _ => 0
  | (k, c) :: rest, b => if b = k then c else omCnt rest b

/-- The leaf codes of a tree in pre-order, letter `0` on the left branch and
`1` on the right, with the empty accumulated code replaced by the one-bit
fallback — the code strings `generateTableRecurse` produces. -/
def codes : HTree → List Nat → List (List Nat)
  | HTree.leaf _ _, pre => [if pre = [] then [0] else pre]
  | HTree.node lt rt, pre => codes lt (pre ++ [0]) ++ codes rt (pre ++ [1])

/-- The `(value, code)` pairs `generateTableRecurse` assigns into
`this.table`, in assignment order. -/
def tableCodes : HTree → List Nat → List (Nat × List Nat)
  | HTree.leaf v e, pre => if e then [] else [(v, if pre = [] then [0] else pre)]
  | HTree.node lt rt, pre => tableCodes lt (pre ++ [0]) ++ tableCodes rt (pre ++ [1])

/-- The codes `generateTableRecurse` assigns into `this.eob`, in order. -/
def eobCodes : HTree → List Nat → List (List Nat)
  | HTree.leaf _ e, pre => if e then [if pre = [] then [0] else pre] else []
  | HTree.node lt rt, pre => eobCodes lt (pre ++ [0]) ++ eobCodes rt (pre ++ [1])

/-- The successive overwrites of `this.eob`: the last assignment wins. -/
def eobFold (l : List (List Nat)) (e : Option (List Nat)) : Option (List Nat) :=
  l.foldl (fun _ c => some c) e

/-- The 8 bits of a byte, most significant first. -/
def bitsOfByte (b : Nat) : List Nat :=
  (List.range 8).map (fun i => (b >>> (7 - i)) &&& 1)

def byteBits (bytes : List Nat) : List Nat :=
  (bytes.map bitsOfByte).flatten

/-- The bits still buffered in the reader's `bits` register: after the
loaded byte has been left-shifted some number of times, the next bit out is
always bit 7 of the register. -/
def bufBits (bits : Nat) (n : Nat) : List Nat :=
  (List.range n).map (fun i => (bits >>> (7 - i)) &&& 1)

/-- The bit stream a reader state will deliver: the buffered bits of the
current byte, then the bits of the bytes not yet loaded.  `bytesRemaining`
negative means the next load starts over at byte 0 (both the fresh state and
the state after reading past the end behave that way). -/
def absStream (input : List Nat) (s : ReaderState) : List Nat :=
  bufBits s.bits s.bitsRemaining.toNat ++
    byteBits (if s.bytesRemaining < 0 then input
              else input.drop (input.length - s.bytesRemaining.toNat))

/-- Reachable-state invariant of the bit reader. -/
def RInv (input : List Nat) (s : ReaderState) : Prop :=
  -1 ≤ s.bitsRemaining ∧ s.bitsRemaining ≤ 8 ∧
    -1 ≤ s.bytesRemaining ∧ s.bytesRemaining ≤ input.length

instance (input : List Nat) (s : ReaderState) : Decidable (RInv input s) := by
  unfold RInv; infer_instance

/-- Number of bits accumulated in the writer's `bits` register. -/
def pendCount (s : WriterState) : Nat :=
  if s.bitsRemaining < 0 then 0 else (8 - s.bitsRemaining).toNat

/-- The accumulated (pending) bits of the writer's register, oldest first. -/
def pendBits (s : WriterState) : List Nat :=
  (List.range (pendCount s)).map (fun i => (s.bits >>> (pendCount s - 1 - i)) &&& 1)

/-- The bit stream a writer state has received so far: the bits of the
pushed bytes followed by the pending bits. -/
def wAbs (s : WriterState) : List Nat :=
  byteBits s.out ++ pendBits s

/-- Reachable-state invariant of the bit writer. -/
def WInv (s : WriterState) : Prop :=
  (s.bitsRemaining = -1 ∧ s.bits = 0) ∨
    (0 ≤ s.bitsRemaining ∧ s.bitsRemaining ≤ 8 ∧
      s.bits < 2 ^ (8 - s.bitsRemaining).toNat)

instance (s : WriterState) : Decidable (WInv s) := by
  unfold WInv; infer_instance

def depthH : HTree → Nat
  | HTree.leaf _ _ => 0
  | HTree.node lt rt => 1 + max (depthH lt) (depthH rt)

/-- All leaf values fit in 8 bits. -/
def valsLtB : HTree → Bool
  | HTree.leaf v _ => decide (v < 256)
  | HTree.node lt rt => valsLtB lt && valsLtB rt

/-- The bit sequence of the tree-serialization grammar:
internal marker `0` then both children, or leaf marker `1`, the EOB flag,
and the 8 value bits. -/
def treeToBits : HTree → List Nat
  | HTree.leaf v e => 1 :: (if e then 1 else 0) :: bitsOfByte v
  | HTree.node lt rt => 0 :: (treeToBits lt ++ treeToBits rt)

/-! ### The occurrence map: ascending-key characterization (C4) -/

lemma omBump_fst_mem {m : List (Nat × Nat)} {b : Nat} {q : Nat × Nat}
    (h : q ∈ omBump m b) : q.1 = b ∨ q.1 ∈ m.map Prod.fst := by
  induction m with
  | nil =>
      simp [omBump] at h
      simp [h]
  | cons hd tl ih =>
      obtain ⟨k, c⟩ := hd
      by_cases hbk : b = k
      · simp [omBump, hbk] at h
        rcases h with h | h
        · right; simp [h, hbk]
        · right
          exact List.mem_map.mpr ⟨q, by simp [h], rfl⟩
      · by_cases hlt : b < k
        · simp [omBump, hbk, hlt] at h
          rcases h with h | h | h
          · left; simp [h]
          · right; simp [h]
          · right
            exact List.mem_map.mpr ⟨q, by simp [h], rfl⟩
        · simp [omBump, hbk, hlt] at h
          rcases h with h | h
          · right; simp [h]
          · rcases ih h with h' | h'
            · exact Or.inl h'
            · right
              rcases List.mem_map.mp h' with ⟨p, hp, hpe⟩
              exact List.mem_map.mpr ⟨p, by simp [hp], hpe⟩

lemma omBump_pairwise {m : List (Nat × Nat)} (b : Nat)
    (h : List.Pairwise (fun p q : Nat × Nat => p.1 < q.1) m) :
    List.Pairwise (fun p q : Nat × Nat => p.1 < q.1) (omBump m b) := by
  induction m with
  | nil => simp [omBump]
  | cons hd tl ih =>
      obtain ⟨k, c⟩ := hd
      rw [List.pairwise_cons] at h
      obtain ⟨hk, htl⟩ := h
      by_cases hbk : b = k
      · simp only [omBump, hbk, if_pos rfl]
        exact List.Pairwise.cons (fun q hq => hk q hq) htl
      · by_cases hlt : b < k
        · simp only [omBump, if_neg hbk, if_pos hlt]
          refine List.Pairwise.cons ?_ (List.Pairwise.cons (fun q hq => hk q hq) htl)
          intro q hq
          rcases List.mem_cons.mp hq with h | h
          · simp [h]; omega
          · have := hk q h
            simp only []
            omega
        · simp only [omBump, if_neg hbk, if_neg hlt]
          refine List.Pairwise.cons ?_ (ih htl)
          intro q hq
          rcases omBump_fst_mem hq with h | h
          · simp only [h]
            omega
          · rcases List.mem_map.mp h with ⟨p, hp, hpe⟩
            have := hk p hp
            simp only [← hpe]
            omega

lemma omCnt_eq_zero {m : List (Nat × Nat)} {b : Nat}
    (h : ∀ q ∈ m, b ≠ q.1) : omCnt m b = 0 := by
  induction m with
  | nil => rfl
  | cons hd tl ih =>
      obtain ⟨k, c⟩ := hd
      have hbk : b ≠ k := h (k, c) (by simp)
      simp only [omCnt, if_neg hbk]
      exact ih fun q hq => h q (by simp [hq])

lemma omBump_cnt {m : List (Nat × Nat)} (b : Nat)
    (h : List.Pairwise (fun p q : Nat × Nat => p.1 < q.1) m) (k : Nat) :
    omCnt (omBump m b) k = omCnt m k + if k = b then 1 else 0 := by
  induction m with
  | nil =>
      by_cases hkb : k = b <;> simp [omBump, omCnt, hkb]
  | cons hd tl ih =>
      obtain ⟨k', c⟩ := hd
      rw [List.pairwise_cons] at h
      obtain ⟨hk', htl⟩ := h
      by_cases hbk : b = k'
      · subst hbk
        simp only [omBump, if_pos rfl]
        by_cases hkb : k = b <;> simp [omCnt, hkb]
      · by_cases hlt : b < k'
        · simp only [omBump, if_neg hbk, if_pos hlt]
          by_cases hkb : k = b
          · have h0 : omCnt tl b = 0 := by
              apply omCnt_eq_zero
              intro q hq
              have := hk' q hq
              omega
            have hbk' : ¬(b = k') := hbk
            simp [omCnt, hkb, if_neg hbk', h0]
          · simp [omCnt, hkb]
        · simp only [omBump, if_neg hbk, if_neg hlt]
          by_cases hkk' : k = k'
          · have hkb : ¬(k = b) := by
              intro h
              exact hbk (by omega)
            simp [omCnt, if_pos hkk', if_neg hkb]
          · simp [omCnt, if_neg hkk', ih htl]

lemma omBump_fst_iff {m : List (Nat × Nat)} {b k : Nat} :
    k ∈ (omBump m b).map Prod.fst ↔ k = b ∨ k ∈ m.map Prod.fst := by
  induction m with
  | nil => simp [omBump]
  | cons hd tl ih =>
      obtain ⟨k', c⟩ := hd
      by_cases hbk : b = k'
      · subst hbk
        simp [omBump]
      · by_cases hlt : b < k'
        · simp [omBump, hbk, hlt]
        · simp only [omBump, if_neg hbk, if_neg hlt, List.map_cons, List.mem_cons, ih]
          tauto

lemma foldl_omBump_pairwise :
    ∀ (data : List Nat) (m : List (Nat × Nat)),
      List.Pairwise (fun p q : Nat × Nat => p.1 < q.1) m →
      List.Pairwise (fun p q : Nat × Nat => p.1 < q.1) (data.foldl omBump m)
  | [], _, hm => hm
  | b :: rest, m, hm => foldl_omBump_pairwise rest (omBump m b) (omBump_pairwise b hm)

lemma foldl_omBump_cnt :
    ∀ (data : List Nat) (m : List (Nat × Nat)),
      List.Pairwise (fun p q : Nat × Nat => p.1 < q.1) m →
      ∀ k, omCnt (data.foldl omBump m) k = omCnt m k + data.count k := by
  intro data
  induction data with
  | nil => intro m _ k; simp
  | cons b rest ih =>
      intro m hm k
      have h1 := ih (omBump m b) (omBump_pairwise b hm) k
      simp only [List.foldl_cons] at *
      rw [h1, omBump_cnt b hm k, List.count_cons]
      by_cases hkb : k = b <;> simp [hkb] <;> omega

lemma foldl_omBump_keys :
    ∀ (data : List Nat) (m : List (Nat × Nat)) (k : Nat),
      k ∈ (data.foldl omBump m).map Prod.fst ↔ k ∈ m.map Prod.fst ∨ k ∈ data := by
  intro data
  induction data with
  | nil => simp
  | cons b rest ih =>
      intro m k
      simp only [List.foldl_cons, ih (omBump m b) k, omBump_fst_iff, List.mem_cons]
      tauto

/-- C4 (amended): the frequency-analysis output lists one `(value, count)`
pair per distinct byte of the buffer, in ascending byte-value order (the JS
object enumerates integer-like keys in ascending numeric order), the count
being the byte's number of occurrences, with exactly one synthetic count-0
EOB entry appended as the last element. -/
theorem C4_occurrence_entries (data : List Nat) :
    List.Pairwise (fun p q : Nat × Nat => p.1 < q.1) (occMap data)
    ∧ (∀ b, omCnt (occMap data) b = data.count b)
    ∧ (∀ b, b ∈ (occMap data).map Prod.fst ↔ b ∈ data)
    ∧ initialEntries data
      = (occMap data).map (fun p => ⟨HTree.leaf p.1 false, p.2⟩)
        ++ [⟨HTree.leaf 0 true, 0⟩] := by
  refine ⟨foldl_omBump_pairwise data [] (by simp), ?_, ?_, rfl⟩
  · intro b
    have := foldl_omBump_cnt data [] (by simp) b
    simpa [occMap, omCnt] using this
  · intro b
    have := foldl_omBump_keys data [] b
    simpa [occMap] using this

/-! ### The stable sort and the merge step (C7) -/

lemma insEntry_perm (e : Entry) (l : List Entry) :
    List.Perm (insEntry e l) (e :: l) := by
  induction l with
  | nil => exact List.Perm.refl _
  | cons x xs ih =>
      by_cases h : e.count ≤ x.count
      · simp only [insEntry, if_pos h]
        exact List.Perm.refl _
      · simp only [insEntry, if_neg h]
        exact (List.Perm.cons x ih).trans (List.Perm.swap e x xs)

lemma sortEntries_perm (l : List Entry) : List.Perm (sortEntries l) l := by
  induction l with
  | nil => exact List.Perm.refl _
  | cons x xs ih =>
      exact (insEntry_perm x (sortEntries xs)).trans (List.Perm.cons x ih)

lemma insEntry_pairwise {e : Entry} {l : List Entry}
    (h : List.Pairwise (fun a b : Entry => a.count ≤ b.count) l) :
    List.Pairwise (fun a b : Entry => a.count ≤ b.count) (insEntry e l) := by
  induction l with
  | nil => simp [insEntry]
  | cons x xs ih =>
      rw [List.pairwise_cons] at h
      obtain ⟨hx, hxs⟩ := h
      by_cases hc : e.count ≤ x.count
      · simp only [insEntry, if_pos hc]
        refine List.Pairwise.cons ?_ (List.Pairwise.cons hx hxs)
        intro y hy
        rcases List.mem_cons.mp hy with h | h
        · rw [h]; exact hc
        · exact le_trans hc (hx y h)
      · simp only [insEntry, if_neg hc]
        refine List.Pairwise.cons ?_ (ih hxs)
        intro y hy
        have hy' : y ∈ e :: xs := (insEntry_perm e xs).subset hy
        rcases List.mem_cons.mp hy' with h | h
        · rw [h]; omega
        · exact hx y h

lemma sortEntries_pairwise (l : List Entry) :
    List.Pairwise (fun a b : Entry => a.count ≤ b.count) (sortEntries l) := by
  induction l with
  | nil => simp [sortEntries]
  | cons x xs ih => exact insEntry_pairwise ih

lemma insEntry_filter (e : Entry) (l : List Entry) (c : Nat) :
    (insEntry e l).filter (fun x => x.count == c)
      = if e.count = c then e :: l.filter (fun x => x.count == c)
        else l.filter (fun x => x.count == c) := by
  induction l with
  | nil =>
      by_cases h : e.count = c <;> simp [insEntry, h]
  | cons x xs ih =>
      by_cases hc : e.count ≤ x.count
      · simp only [insEntry, if_pos hc]
        by_cases h : e.count = c <;> simp [List.filter_cons, h]
      · simp only [insEntry, if_neg hc, List.filter_cons]
        rw [ih]
        by_cases h : e.count = c
        · have hx : (x.count == c) = false := by
            simp only [beq_eq_false_iff_ne, ne_eq]
            omega
          simp [h, hx]
        · simp [h]

lemma sortEntries_filter (l : List Entry) (c : Nat) :
    (sortEntries l).filter (fun x => x.count == c)
      = l.filter (fun x => x.count == c) := by
  induction l with
  | nil => rfl
  | cons x xs ih =>
      show (insEntry x (sortEntries xs)).filter _ = _
      rw [insEntry_filter, List.filter_cons, ih]
      by_cases h : x.count = c
      · simp [h]
      · simp [h]

/-- C7: one iteration of the tree-construction loop.  The working list is
reordered by the unique stable ascending sort by weight (the filter
conjunct expresses stability: entries of each weight keep their relative
order), the two entries removed are the smallest `m` and next-smallest `s`,
the appended internal node is `⟨node s.tree m.tree, s.count + m.count⟩`
(left = second, right = min, weight = sum), the loop iterates exactly when
more than one entry remains, and a single remaining entry is left as the
root. -/
theorem C7_merge_step (occ : List Entry) (h : 1 < occ.length) :
    ∃ m s rest, sortEntries occ = m :: s :: rest
      ∧ m.count ≤ s.count
      ∧ (∀ x ∈ occ, m.count ≤ x.count)
      ∧ (∀ x ∈ rest, s.count ≤ x.count)
      ∧ (∀ c, (sortEntries occ).filter (fun e => e.count == c)
              = occ.filter (fun e => e.count == c))
      ∧ buildStep occ = rest ++ [⟨HTree.node s.tree m.tree, s.count + m.count⟩]
      ∧ (∀ fuel, buildLoop (fuel + 1) occ = buildLoop fuel (buildStep occ))
      ∧ (∀ (e : Entry) (fuel : Nat), buildLoop fuel [e] = [e]) := by
  have hlen : 1 < (sortEntries occ).length := by
    rw [(sortEntries_perm occ).length_eq]
    exact h
  rcases hsort : sortEntries occ with _ | ⟨m, _ | ⟨s, rest⟩⟩
  · rw [hsort] at hlen
    simp at hlen
  · rw [hsort] at hlen
    simp at hlen
  · refine ⟨m, s, rest, rfl, ?_, ?_, ?_, ?_, ?_, ?_, ?_⟩
    · have hp := sortEntries_pairwise occ
      rw [hsort, List.pairwise_cons] at hp
      exact hp.1 s (by simp)
    · intro x hx
      have hx' : x ∈ sortEntries occ := (sortEntries_perm occ).mem_iff.mpr hx
      rw [hsort] at hx'
      have hp := sortEntries_pairwise occ
      rw [hsort, List.pairwise_cons] at hp
      rcases List.mem_cons.mp hx' with h1 | h1
      · rw [h1]
      · exact hp.1 x h1
    · intro x hx
      have hp := sortEntries_pairwise occ
      rw [hsort, List.pairwise_cons] at hp
      have hp2 := hp.2
      rw [List.pairwise_cons] at hp2
      exact hp2.1 x hx
    · intro c
      rw [← hsort]
      exact sortEntries_filter occ c
    · simp [buildStep, hsort]
    · intro fuel
      simp [buildLoop, h]
    · intro e fuel
      cases fuel with
      | zero => rfl
      | succ f => simp [buildLoop]

/-- Witness for C7: the entry list of the buffer `[65, 65]`
(the byte entry with count 2 and the EOB entry). -/
theorem C7_merge_step_witness :
    1 < ([⟨HTree.leaf 65 false, 2⟩, ⟨HTree.leaf 0 true, 0⟩] : List Entry).length
    ∧ (∃ m s rest,
        sortEntries [⟨HTree.leaf 65 false, 2⟩, ⟨HTree.leaf 0 true, 0⟩] = m :: s :: rest
        ∧ m.count ≤ s.count
        ∧ (∀ x ∈ ([⟨HTree.leaf 65 false, 2⟩, ⟨HTree.leaf 0 true, 0⟩] : List Entry),
            m.count ≤ x.count)
        ∧ (∀ x ∈ rest, s.count ≤ x.count)
        ∧ (∀ c, (sortEntries [⟨HTree.leaf 65 false, 2⟩, ⟨HTree.leaf 0 true, 0⟩]).filter
                  (fun e => e.count == c)
                = ([⟨HTree.leaf 65 false, 2⟩, ⟨HTree.leaf 0 true, 0⟩] : List Entry).filter
                  (fun e => e.count == c))
        ∧ buildStep [⟨HTree.leaf 65 false, 2⟩, ⟨HTree.leaf 0 true, 0⟩]
            = rest ++ [⟨HTree.node s.tree m.tree, s.count + m.count⟩]
        ∧ (∀ fuel, buildLoop (fuel + 1) [⟨HTree.leaf 65 false, 2⟩, ⟨HTree.leaf 0 true, 0⟩]
            = buildLoop fuel (buildStep [⟨HTree.leaf 65 false, 2⟩, ⟨HTree.leaf 0 true, 0⟩]))
        ∧ (∀ (e : Entry) (fuel : Nat), buildLoop fuel [e] = [e])) :=
  ⟨by decide, C7_merge_step [⟨HTree.leaf 65 false, 2⟩, ⟨HTree.leaf 0 true, 0⟩] (by decide)⟩

/-! ### Prefix-freeness of the generated code table (C8) -/

lemma genTableGo_eq (t : HTree) :
    ∀ (pre : List Nat) (T : List (Nat × List Nat)) (E : Option (List Nat)),
      genTableGo t pre (T, E)
        = (T ++ tableCodes t pre, eobFold (eobCodes t pre) E) := by
  induction t with
  | leaf v e =>
      intro pre T E
      cases e <;> simp [genTableGo, tableCodes, eobCodes, eobFold]
  | node lt rt ihl ihr =>
      intro pre T E
      simp [genTableGo, tableCodes, eobCodes, eobFold, ihl, ihr,
        List.append_assoc, List.foldl_append]

lemma eobFold_mem :
    ∀ (l : List (List Nat)) (E : Option (List Nat)) (c : List Nat),
      eobFold l E = some c → c ∈ l ∨ E = some c := by
  intro l
  induction l with
  | nil =>
      intro E c h
      exact Or.inr h
  | cons x xs ih =>
      intro E c h
      rcases ih (some x) c h with h' | h'
      · exact Or.inl (List.mem_cons_of_mem x h')
      · exact Or.inl (by simp [Option.some.inj h'])

lemma isInitSeg_ne_branch :
    ∀ (x : List Nat) (i j : Nat) (s u : List Nat), i ≠ j →
      isInitSeg (x ++ i :: s) (x ++ j :: u) = false := by
  intro x
  induction x with
  | nil =>
      intro i j s u hij
      have h : (i == j) = false := beq_eq_false_iff_ne.mpr hij
      simp [isInitSeg, h]
  | cons a x ih =>
      intro i j s u hij
      simp only [List.cons_append, isInitSeg, beq_self_eq_true, Bool.true_and]
      exact ih i j s u hij

lemma codes_shape :
    ∀ (t : HTree) (pre : List Nat), pre ≠ [] →
      ∀ c ∈ codes t pre, ∃ suf, c = pre ++ suf := by
  intro t
  induction t with
  | leaf v e =>
      intro pre hpre c hc
      simp [codes, hpre] at hc
      exact ⟨[], by simp [hc]⟩
  | node lt rt ihl ihr =>
      intro pre hpre c hc
      simp only [codes, List.mem_append] at hc
      rcases hc with hc | hc
      · obtain ⟨suf, hs⟩ := ihl (pre ++ [0]) (by simp) c hc
        exact ⟨0 :: suf, by simp [hs]⟩
      · obtain ⟨suf, hs⟩ := ihr (pre ++ [1]) (by simp) c hc
        exact ⟨1 :: suf, by simp [hs]⟩

lemma codes_pairwise :
    ∀ (t : HTree) (pre : List Nat), pre ≠ [] →
      List.Pairwise (fun a b => isInitSeg a b = false ∧ isInitSeg b a = false)
        (codes t pre) := by
  intro t
  induction t with
  | leaf v e =>
      intro pre _
      simp [codes]
  | node lt rt ihl ihr =>
      intro pre _
      simp only [codes]
      rw [List.pairwise_append]
      refine ⟨ihl _ (by simp), ihr _ (by simp), ?_⟩
      intro a ha b hb
      obtain ⟨sa, rfl⟩ := codes_shape lt (pre ++ [0]) (by simp) a ha
      obtain ⟨sb, rfl⟩ := codes_shape rt (pre ++ [1]) (by simp) b hb
      constructor
      · have h := isInitSeg_ne_branch pre 0 1 sa sb (by omega)
        simpa [List.append_assoc] using h
      · have h := isInitSeg_ne_branch pre 1 0 sb sa (by omega)
        simpa [List.append_assoc] using h

lemma codes_root_pairwise (t : HTree) :
    List.Pairwise (fun a b => isInitSeg a b = false ∧ isInitSeg b a = false)
      (codes t []) := by
  cases t with
  | leaf v e => simp [codes]
  | node lt rt =>
      simp only [codes]
      rw [List.pairwise_append]
      refine ⟨codes_pairwise lt [0] (by simp), codes_pairwise rt [1] (by simp), ?_⟩
      intro a ha b hb
      obtain ⟨sa, rfl⟩ := codes_shape lt [0] (by simp) a ha
      obtain ⟨sb, rfl⟩ := codes_shape rt [1] (by simp) b hb
      constructor
      · simpa using isInitSeg_ne_branch [] 0 1 sa sb (by omega)
      · simpa using isInitSeg_ne_branch [] 1 0 sb sa (by omega)

lemma perm_shuffle {γ : Type} (w x y z : List γ) :
    List.Perm ((w ++ x) ++ (y ++ z)) ((w ++ y) ++ (x ++ z)) := by
  have hmid : List.Perm ((x ++ y) ++ z) ((y ++ x) ++ z) :=
    (List.perm_append_comm).append_right z
  have e1 : (w ++ x) ++ (y ++ z) = w ++ ((x ++ y) ++ z) := by
    simp [List.append_assoc]
  have e2 : (w ++ y) ++ (x ++ z) = w ++ ((y ++ x) ++ z) := by
    simp [List.append_assoc]
  rw [e1, e2]
  exact List.Perm.append_left w hmid

lemma tableCodes_eobCodes_perm :
    ∀ (t : HTree) (pre : List Nat),
      List.Perm ((tableCodes t pre).map Prod.snd ++ eobCodes t pre)
        (codes t pre) := by
  intro t
  induction t with
  | leaf v e =>
      intro pre
      cases e <;> simp [tableCodes, eobCodes, codes]
  | node lt rt ihl ihr =>
      intro pre
      simp only [tableCodes, eobCodes, codes, List.map_append]
      refine List.Perm.trans (perm_shuffle _ _ _ _) ?_
      exact (ihl _).append (ihr _)

lemma pairwise_incomp_table (t : HTree) :
    List.Pairwise (fun a b => isInitSeg a b = false ∧ isInitSeg b a = false)
      ((tableCodes t []).map Prod.snd ++ eobCodes t []) := by
  exact ((tableCodes_eobCodes_perm t []).pairwise_iff
    (fun h => ⟨h.2, h.1⟩)).mpr (codes_root_pairwise t)

/-- C8: in the code table generated for any input buffer, together with the
EOB code, no bitcode is an initial segment (prefix) of another. -/
theorem C8_codes_prefix_free (data : List Nat) :
    List.Pairwise (fun a b => isInitSeg a b = false ∧ isInitSeg b a = false)
      ((generateTable (generateTree data)).1.map Prod.snd
        ++ ((generateTable (generateTree data)).2).toList) := by
  have hgen : generateTable (generateTree data)
      = (tableCodes (generateTree data) [],
         eobFold (eobCodes (generateTree data) []) none) := by
    unfold generateTable
    simpa using genTableGo_eq (generateTree data) [] [] none
  rw [hgen]
  have hPW := pairwise_incomp_table (generateTree data)
  have h3 := List.pairwise_append.mp hPW
  rcases he : eobFold (eobCodes (generateTree data) []) none with _ | c
  · simpa using h3.1
  · have hc : c ∈ eobCodes (generateTree data) [] := by
      rcases eobFold_mem _ _ _ he with h | h
      · exact h
      · cases h
    simp only [Option.toList]
    rw [List.pairwise_append]
    refine ⟨h3.1, by simp, ?_⟩
    intro a ha b hb
    have hb' : b = c := by simpa using hb
    rw [hb']
    exact h3.2.2 a ha c hc

/-! ### Bit-level correctness of the reader (towards C10) -/

lemma two_mul_or_one (x : Nat) : 2 * x ||| 1 = 2 * x + 1 := by
  apply Nat.eq_of_testBit_eq
  intro i
  cases i with
  | zero =>
      have e0 : (2 * x) % 2 = 0 := by omega
      have e1 : (2 * x + 1) % 2 = 1 := by omega
      rw [Nat.testBit_lor]
      simp [Nat.testBit_zero, e0, e1]
  | succ j =>
      rw [Nat.testBit_lor, Nat.testBit_succ, Nat.testBit_succ, Nat.testBit_succ]
      have h1 : 2 * x / 2 = x := by omega
      have h2 : (2 * x + 1) / 2 = x := by omega
      have h3 : (1 : Nat) / 2 = 0 := by norm_num
      rw [h1, h2, h3]
      simp

lemma or_bit_eq_add (x e : Nat) (h : e < 2) : (x <<< 1) ||| e = 2 * x + e := by
  rw [Nat.shiftLeft_eq, pow_one, Nat.mul_comm]
  interval_cases e
  · simp
  · exact two_mul_or_one x

lemma shiftRight_two_mul_add (x e k : Nat) (he : e < 2) (hk : 1 ≤ k) :
    (2 * x + e) >>> k = x >>> (k - 1) := by
  obtain ⟨k', rfl⟩ : ∃ k', k = k' + 1 := ⟨k - 1, by omega⟩
  rw [Nat.shiftRight_eq_div_pow, Nat.shiftRight_eq_div_pow]
  simp only [Nat.add_sub_cancel]
  rw [pow_succ', ← Nat.div_div_eq_div_mul, Nat.mul_add_div (by omega),
    Nat.div_eq_of_lt he]
  simp

lemma shiftLeft_one_shiftRight (x k : Nat) (hk : 1 ≤ k) :
    (x <<< 1) >>> k = x >>> (k - 1) := by
  have h : x <<< 1 = 2 * x + 0 := by
    rw [Nat.shiftLeft_eq, pow_one, Nat.mul_comm]
    omega
  rw [h, shiftRight_two_mul_add x 0 k (by omega) hk]

lemma and_one_lt_two (v : Nat) : v &&& 1 < 2 := by
  rw [Nat.and_one_is_mod]
  omega

lemma bufBits_succ (bits n : Nat) (hn : n ≤ 7) :
    bufBits bits (n + 1) = ((bits >>> 7) &&& 1) :: bufBits (bits <<< 1) n := by
  unfold bufBits
  rw [List.range_succ_eq_map]
  simp only [List.map_cons, List.map_map, Nat.sub_zero]
  congr 1
  apply List.map_congr_left
  intro i hi
  have hi' : i < n := List.mem_range.mp hi
  simp only [Function.comp_apply]
  have h1 : 7 - (i + 1) = (7 - i) - 1 := by omega
  rw [h1, ← shiftLeft_one_shiftRight bits (7 - i) (by omega)]

lemma byteBits_cons (b : Nat) (rest : List Nat) :
    byteBits (b :: rest) = bufBits b 8 ++ byteBits rest := by
  simp [byteBits, bitsOfByte, bufBits]

lemma readBit_eq_skip {input : List Nat} {s : ReaderState}
    (h : ¬ s.bitsRemaining < 1) :
    readBit input s = Except.ok ((s.bits >>> 7) &&& 1,
      { s with bits := s.bits <<< 1, bitsRemaining := s.bitsRemaining - 1,
               consumed := s.consumed + 1 }) := by
  unfold readBit
  rw [if_neg h]
  rfl

lemma readBit_eq_load {input : List Nat} {s : ReaderState}
    (h : s.bitsRemaining < 1) :
    readBit input s =
      Except.ok
        ((getByte input ((input.length : Int) -
            (if s.bytesRemaining < 0 then (input.length : Int) else s.bytesRemaining))
              >>> 7) &&& 1,
         { bytesRemaining :=
             (if s.bytesRemaining < 0 then (input.length : Int) else s.bytesRemaining) - 1,
           bitsRemaining := 8 - 1,
           bits := getByte input ((input.length : Int) -
             (if s.bytesRemaining < 0 then (input.length : Int) else s.bytesRemaining)) <<< 1,
           consumed := s.consumed + 1 }) := by
  unfold readBit inputBytesRemainingIsZero
  rw [if_pos h]
  rfl

lemma getByte_lt {input : List Nat} {i : Int} (h0 : 0 ≤ i)
    (h : i.toNat < input.length) : getByte input i = input[i.toNat] := by
  unfold getByte
  rw [if_pos h0]
  exact List.getD_eq_getElem input 0 h

/-- One `readBit` consumes exactly the head of the abstract bit stream,
provided the stream is nonempty and the state is reachable. -/
lemma readBit_step {input : List Nat} {s : ReaderState} {x : Nat} {rest : List Nat}
    (hInv : RInv input s) (habs : absStream input s = x :: rest) :
    ∃ s', readBit input s = Except.ok (x, s')
      ∧ absStream input s' = rest
      ∧ RInv input s'
      ∧ s'.consumed = s.consumed + 1 := by
  obtain ⟨h1, h2, h3, h4⟩ := hInv
  by_cases hbr : s.bitsRemaining < 1
  · -- the register is empty: a byte is loaded first
    have hz : s.bitsRemaining.toNat = 0 := by omega
    rw [absStream, hz] at habs
    simp only [bufBits, List.range_zero, List.map_nil, List.nil_append] at habs
    by_cases hbyr : s.bytesRemaining < 0
    · -- fresh (or wrapped) state: the whole input is (re)read
      rw [if_pos hbyr] at habs
      have hlen : 0 < input.length := by
        rcases input with _ | ⟨b, t⟩
        · simp [byteBits] at habs
        · simp
      have hin : input = input[0] :: input.drop 1 := by
        conv_lhs => rw [← List.drop_zero input]
        rw [List.drop_eq_getElem_cons hlen]
      rw [hin, byteBits_cons, bufBits_succ _ _ (by omega)] at habs
      rw [List.cons_append, List.cons.injEq] at habs
      obtain ⟨hx, hrest⟩ := habs
      have hgb : getByte input ((input.length : Int) - (input.length : Int))
          = input[0] := by
        have h0 : ((input.length : Int) - (input.length : Int)) = 0 := by omega
        rw [h0]
        exact getByte_lt (by omega) (by simpa using hlen)
      have hread : readBit input s = Except.ok (x,
          ⟨(input.length : Int) - 1, 8 - 1, input[0] <<< 1, s.consumed + 1⟩) := by
        rw [readBit_eq_load hbr, if_pos hbyr, hgb, hx]
      refine ⟨_, hread, ?_, ?_, rfl⟩
      · rw [absStream]
        have ht1 : ((8 : Int) - 1).toNat = 7 := by decide
        have ht2 : ¬ ((input.length : Int) - 1 < 0) := by omega
        simp only [ht1, if_neg ht2]
        have ht3 : input.length - ((input.length : Int) - 1).toNat = 1 := by omega
        rw [ht3]
        exact hrest
      · refine ⟨?_, ?_, ?_, ?_⟩ <;> dsimp only <;> omega
    · -- mid-buffer state: the next unread byte is loaded
      rw [if_neg hbyr] at habs
      have hBpos : 1 ≤ s.bytesRemaining := by
        by_contra hc
        have hB0 : s.bytesRemaining.toNat = 0 := by omega
        rw [hB0] at habs
        simp [byteBits, List.drop_length] at habs
      have hidx : input.length - s.bytesRemaining.toNat < input.length := by omega
      have hdrop : input.drop (input.length - s.bytesRemaining.toNat)
          = input[input.length - s.bytesRemaining.toNat]
            :: input.drop (input.length - s.bytesRemaining.toNat + 1) := by
        rw [List.drop_eq_getElem_cons hidx]
      rw [hdrop, byteBits_cons, bufBits_succ _ _ (by omega)] at habs
      rw [List.cons_append, List.cons.injEq] at habs
      obtain ⟨hx, hrest⟩ := habs
      have hti : ((input.length : Int) - s.bytesRemaining).toNat
          = input.length - s.bytesRemaining.toNat := by omega
      have hgb : getByte input ((input.length : Int) - s.bytesRemaining)
          = input[input.length - s.bytesRemaining.toNat] := by
        rw [getByte_lt (by omega) (by omega : ((input.length : Int) - s.bytesRemaining).toNat < input.length)]
        congr 1
      have hread : readBit input s = Except.ok (x,
          ⟨s.bytesRemaining - 1, 8 - 1,
           input[input.length - s.bytesRemaining.toNat] <<< 1, s.consumed + 1⟩) := by
        rw [readBit_eq_load hbr, if_neg hbyr, hgb, hx]
      refine ⟨_, hread, ?_, ?_, rfl⟩
      · rw [absStream]
        have ht1 : ((8 : Int) - 1).toNat = 7 := by decide
        have ht2 : ¬ (s.bytesRemaining - 1 < 0) := by omega
        simp only [ht1, if_neg ht2]
        have ht3 : input.length - (s.bytesRemaining - 1).toNat
            = input.length - s.bytesRemaining.toNat + 1 := by omega
        rw [ht3]
        exact hrest
      · refine ⟨?_, ?_, ?_, ?_⟩ <;> dsimp only <;> omega
  · -- buffered bits remain
    obtain ⟨m, hm⟩ : ∃ m : Nat, s.bitsRemaining.toNat = m + 1 :=
      ⟨s.bitsRemaining.toNat - 1, by omega⟩
    rw [absStream, hm, bufBits_succ _ _ (by omega)] at habs
    rw [List.cons_append, List.cons.injEq] at habs
    obtain ⟨hx, hrest⟩ := habs
    have hread : readBit input s = Except.ok (x,
        { s with bits := s.bits <<< 1, bitsRemaining := s.bitsRemaining - 1,
                 consumed := s.consumed + 1 }) := by
      rw [readBit_eq_skip hbr, hx]
    refine ⟨_, hread, ?_, ?_, rfl⟩
    · rw [absStream]
      have ht : (s.bitsRemaining - 1).toNat = m := by omega
      simp only [ht]
      exact hrest
    · refine ⟨?_, ?_, ?_, ?_⟩ <;> dsimp only <;> omega

lemma except_bind_ok {alpha beta : Type} (a : alpha) (f : alpha → Except String beta) :
    (Except.ok a : Except String alpha) >>= f = f a := rfl

lemma readUIntGo_spec {input : List Nat} :
    ∀ (bs rest : List Nat) (acc : Nat) (s : ReaderState),
      RInv input s → absStream input s = bs ++ rest →
      ∃ s', readUIntGo input bs.length acc s
          = Except.ok (bs.foldl (fun a b => (a <<< 1) ||| b) acc, s')
        ∧ absStream input s' = rest ∧ RInv input s'
        ∧ s'.consumed = s.consumed + bs.length := by
  intro bs
  induction bs with
  | nil =>
      intro rest acc s hInv habs
      exact ⟨s, rfl, by simpa using habs, hInv, by simp⟩
  | cons b bs ih =>
      intro rest acc s hInv habs
      rw [List.cons_append] at habs
      obtain ⟨s1, hread, habs1, hInv1, hcons1⟩ := readBit_step hInv habs
      obtain ⟨s', hrec, habs', hInv', hcons'⟩ :=
        ih rest ((acc <<< 1) ||| b) s1 hInv1 habs1
      refine ⟨s', ?_, habs', hInv', ?_⟩
      · show readUIntGo input (bs.length + 1) acc s = _
        rw [readUIntGo, hread, except_bind_ok]
        rw [List.foldl_cons]
        exact hrec
      · rw [hcons', hcons1, List.length_cons]
        omega

lemma bitsOfByte_length (v : Nat) : (bitsOfByte v).length = 8 := by
  simp [bitsOfByte]

lemma bitsOfByte_foldl {v : Nat} (hv : v < 256) :
    (bitsOfByte v).foldl (fun a b => (a <<< 1) ||| b) 0 = v := by
  have h : ∀ w : Nat, w < 256 →
      (bitsOfByte w).foldl (fun a b => (a <<< 1) ||| b) 0 = w := by
    unfold bitsOfByte
    decide
  exact h v hv

lemma valsLtB_node {lt rt : HTree} (h : valsLtB (HTree.node lt rt) = true) :
    valsLtB lt = true ∧ valsLtB rt = true := by
  simpa [valsLtB, Bool.and_eq_true] using h

/-- Deserializing a stream that starts with the serialization of `t`
reconstructs exactly `t` (same shape, leaf values and EOB flags) and
consumes exactly `(treeToBits t).length` bits. -/
lemma readTree_spec {input : List Nat} :
    ∀ (t : HTree) (fuel : Nat) (s : ReaderState) (rest : List Nat),
      valsLtB t = true → depthH t < fuel → RInv input s →
      absStream input s = treeToBits t ++ rest →
      ∃ s', readTreeRecurse input fuel s = Except.ok (t, s')
        ∧ absStream input s' = rest ∧ RInv input s'
        ∧ s'.consumed = s.consumed + (treeToBits t).length := by
  intro t
  induction t with
  | leaf v e =>
      intro fuel s rest hv hd hInv habs
      obtain ⟨f, rfl⟩ : ∃ f, fuel = f + 1 := ⟨fuel - 1, by omega⟩
      rw [treeToBits] at habs
      simp only [List.cons_append] at habs
      obtain ⟨s1, hr1, habs1, hInv1, hc1⟩ := readBit_step hInv habs
      obtain ⟨s2, hr2, habs2, hInv2, hc2⟩ := readBit_step hInv1 habs1
      obtain ⟨s3, hr3, habs3, hInv3, hc3⟩ :=
        readUIntGo_spec (bitsOfByte v) rest 0 s2 hInv2 habs2
      rw [bitsOfByte_length] at hr3 hc3
      have hv' : v < 256 := by
        have := hv
        unfold valsLtB at this
        exact of_decide_eq_true this
      rw [bitsOfByte_foldl hv'] at hr3
      refine ⟨s3, ?_, habs3, hInv3, ?_⟩
      · rw [readTreeRecurse, hr1, except_bind_ok]
        dsimp only
        rw [if_neg (by decide)]
        rw [hr2, except_bind_ok]
        dsimp only
        rw [readUInt, hr3, except_bind_ok]
        cases e <;> rfl
      · rw [hc3, hc2, hc1, treeToBits]
        simp [bitsOfByte_length]
  | node lt rt ihl ihr =>
      intro fuel s rest hv hd hInv habs
      obtain ⟨f, rfl⟩ : ∃ f, fuel = f + 1 := ⟨fuel - 1, by omega⟩
      obtain ⟨hvl, hvr⟩ := valsLtB_node hv
      rw [treeToBits] at habs
      simp only [List.cons_append, List.append_assoc] at habs
      obtain ⟨s1, hr1, habs1, hInv1, hc1⟩ := readBit_step hInv habs
      have hdl : depthH lt < f := by
        unfold depthH at hd
        omega
      have hdr : depthH rt < f := by
        unfold depthH at hd
        omega
      obtain ⟨s2, hr2, habs2, hInv2, hc2⟩ :=
        ihl f s1 (treeToBits rt ++ rest) hvl hdl hInv1 habs1
      obtain ⟨s3, hr3, habs3, hInv3, hc3⟩ :=
        ihr f s2 rest hvr hdr hInv2 habs2
      refine ⟨s3, ?_, habs3, hInv3, ?_⟩
      · rw [readTreeRecurse, hr1, except_bind_ok]
        dsimp only
        rw [if_pos (by decide)]
        rw [hr2, except_bind_ok]
        dsimp only
        rw [hr3, except_bind_ok]
      · rw [hc3, hc2, hc1, treeToBits]
        simp
        omega

/-! ### Bit-level correctness of the writer (towards C10) -/

lemma byteBits_append (l1 l2 : List Nat) :
    byteBits (l1 ++ l2) = byteBits l1 ++ byteBits l2 := by
  simp [byteBits]

lemma and_one_idem (x : Nat) : (x &&& 1) &&& 1 = x &&& 1 := by
  rw [Nat.and_one_is_mod, Nat.and_one_is_mod]
  omega

lemma map_and_one_bitsOfByte (v : Nat) :
    (bitsOfByte v).map (fun b => b &&& 1) = bitsOfByte v := by
  unfold bitsOfByte
  rw [List.map_map]
  apply List.map_congr_left
  intro i _
  exact and_one_idem _

lemma writeBit_eq (s : WriterState) (v : Nat) :
    writeBit s v =
      if s.bitsRemaining < 1 then
        { out := if s.bitsRemaining == 0 then s.out ++ [s.bits] else s.out,
          bitsRemaining := 8 - 1, bits := (0 <<< 1) ||| (v &&& 1),
          written := s.written + 1 }
      else
        { out := s.out, bitsRemaining := s.bitsRemaining - 1,
          bits := (s.bits <<< 1) ||| (v &&& 1), written := s.written + 1 } := by
  unfold writeBit
  by_cases h : s.bitsRemaining < 1
  · rw [if_pos h, if_pos h]
  · rw [if_neg h, if_neg h]

lemma pendBits_push (bits p e : Nat) (_hp : p ≤ 7) (he : e < 2) :
    (List.range (p + 1)).map (fun i => ((2 * bits + e) >>> (p + 1 - 1 - i)) &&& 1)
      = (List.range p).map (fun i => (bits >>> (p - 1 - i)) &&& 1) ++ [e] := by
  have hr : List.range (p + 1) = List.range p ++ [p] := by
    simpa using List.range_succ p
  rw [hr, List.map_append]
  congr 1
  · apply List.map_congr_left
    intro i hi
    have hi' : i < p := List.mem_range.mp hi
    rw [show p + 1 - 1 - i = p - i from by omega,
      shiftRight_two_mul_add bits e (p - i) he (by omega)]
    congr 2
    omega
  · rw [List.map_cons, List.map_nil]
    rw [show p + 1 - 1 - p = 0 from by omega]
    rw [Nat.shiftRight_zero, Nat.and_one_is_mod]
    congr 1
    omega

/-- One `writeBit` appends exactly one bit to the abstract written stream. -/
lemma writeBit_step (s : WriterState) (v : Nat) (h : WInv s) :
    wAbs (writeBit s v) = wAbs s ++ [v &&& 1]
    ∧ WInv (writeBit s v)
    ∧ (writeBit s v).written = s.written + 1 := by
  rcases h with ⟨hbr, hb⟩ | ⟨h0, h8, hlt⟩
  · -- fresh state (bitsRemaining = -1): start a new byte, nothing pushed
    have hwb : writeBit s v = ⟨s.out, 7, v &&& 1, s.written + 1⟩ := by
      unfold writeBit
      rw [if_pos (show s.bitsRemaining < 1 from by omega)]
      rw [show (s.bitsRemaining == 0) = false from by rw [hbr]; decide]
      dsimp only
      rw [if_neg (show ¬ (false = true) from by decide)]
      rw [Nat.zero_shiftLeft, Nat.zero_or]
      rfl
    rw [hwb]
    refine ⟨?_, Or.inr ⟨?_, ?_, ?_⟩, rfl⟩
    · unfold wAbs pendBits pendCount
      dsimp only
      rw [if_pos (show s.bitsRemaining < 0 from by omega),
        if_neg (show ¬ ((7 : Int) < 0) from by decide)]
      rw [show ((8 : Int) - 7).toNat = 1 from rfl]
      simp [and_one_idem]
    · dsimp only
      decide
    · dsimp only
      decide
    · dsimp only
      rw [show ((8 : Int) - 7).toNat = 1 from rfl, pow_one]
      exact and_one_lt_two v
  · by_cases hz : s.bitsRemaining = 0
    · -- a full byte is pending: it is pushed, then a new byte starts
      have hwb : writeBit s v
          = ⟨s.out ++ [s.bits], 7, v &&& 1, s.written + 1⟩ := by
        unfold writeBit
        rw [if_pos (show s.bitsRemaining < 1 from by omega)]
        rw [show (s.bitsRemaining == 0) = true from by rw [hz]; decide]
        dsimp only
        rw [if_pos (show (true = true) from rfl)]
        rw [Nat.zero_shiftLeft, Nat.zero_or]
        rfl
      rw [hwb]
      refine ⟨?_, Or.inr ⟨?_, ?_, ?_⟩, rfl⟩
      · unfold wAbs pendBits pendCount
        dsimp only
        rw [if_neg (show ¬ (s.bitsRemaining < 0) from by omega),
          if_neg (show ¬ ((7 : Int) < 0) from by decide)]
        rw [show ((8 : Int) - 7).toNat = 1 from rfl]
        simp only [hz]
        rw [show ((8 : Int) - 0).toNat = 8 from rfl]
        rw [byteBits_append]
        have hpend : byteBits [s.bits]
            = (List.range 8).map (fun i => (s.bits >>> (8 - 1 - i)) &&& 1) := by
          simp [byteBits, bitsOfByte]
        rw [hpend]
        simp [and_one_idem, List.append_assoc]
      · dsimp only
        decide
      · dsimp only
        decide
      · dsimp only
        rw [show ((8 : Int) - 7).toNat = 1 from rfl, pow_one]
        exact and_one_lt_two v
    · -- room in the register: the bit is appended to the pending bits
      have hwb : writeBit s v
          = ⟨s.out, s.bitsRemaining - 1, (s.bits <<< 1) ||| (v &&& 1),
             s.written + 1⟩ := by
        unfold writeBit
        rw [if_neg (show ¬ (s.bitsRemaining < 1) from by omega)]
      rw [hwb]
      obtain ⟨p, hpd, hp7⟩ :
          ∃ p : Nat, ((8 : Int) - s.bitsRemaining).toNat = p ∧ p ≤ 7 :=
        ⟨((8 : Int) - s.bitsRemaining).toNat, rfl, by omega⟩
      have hor : (s.bits <<< 1) ||| (v &&& 1) = 2 * s.bits + (v &&& 1) :=
        or_bit_eq_add _ _ (and_one_lt_two v)
      refine ⟨?_, Or.inr ⟨?_, ?_, ?_⟩, rfl⟩
      · unfold wAbs pendBits pendCount
        dsimp only
        rw [if_neg (show ¬ (s.bitsRemaining < 0) from by omega),
          if_neg (show ¬ (s.bitsRemaining - 1 < 0) from by omega)]
        simp only [show ((8 : Int) - (s.bitsRemaining - 1)).toNat = p + 1 from by omega,
          hpd, hor]
        rw [pendBits_push s.bits p (v &&& 1) hp7 (and_one_lt_two v)]
        rw [← List.append_assoc]
      · dsimp only
        omega
      · dsimp only
        omega
      · dsimp only
        rw [show ((8 : Int) - (s.bitsRemaining - 1)).toNat = p + 1 from by omega]
        rw [hor]
        rw [hpd] at hlt
        have h2 : (2 : Nat) ^ (p + 1) = 2 * 2 ^ p := by
          rw [pow_succ']
        have h3 := and_one_lt_two v
        omega

lemma writeCode_fold {code : List Nat} :
    ∀ {s : WriterState}, WInv s →
      wAbs (writeCode s code) = wAbs s ++ code.map (fun b => b &&& 1)
      ∧ WInv (writeCode s code)
      ∧ (writeCode s code).written = s.written + code.length := by
  induction code with
  | nil =>
      intro s h
      exact ⟨by simp [writeCode], h, by simp [writeCode]⟩
  | cons b bs ih =>
      intro s h
      obtain ⟨h1, h2, h3⟩ := writeBit_step s b h
      obtain ⟨g1, g2, g3⟩ := ih h2
      refine ⟨?_, g2, ?_⟩
      · show wAbs (writeCode (writeBit s b) bs) = _
        rw [g1, h1, List.map_cons, List.append_assoc]
        rfl
      · show (writeCode (writeBit s b) bs).written = _
        rw [g3, h3, List.length_cons]
        omega

lemma writeUInt_eq_writeCode (s : WriterState) (v : Nat) :
    writeUInt s v 8 = writeCode s (bitsOfByte v) := by
  show (List.range 8).foldl (fun s i => writeBit s ((v >>> (8 - 1 - i)) &&& 1)) s
      = ((List.range 8).map (fun i => (v >>> (7 - i)) &&& 1)).foldl writeBit s
  rw [List.foldl_map]

lemma treeToBits_length_leaf (v : Nat) (e : Bool) :
    (treeToBits (HTree.leaf v e)).length = 10 := by
  simp [treeToBits, bitsOfByte]

/-- `writeTreeRecurse` appends exactly the serialization bits `treeToBits t`
to the written stream and reports exactly their number. -/
lemma writeTree_spec :
    ∀ (t : HTree) (s : WriterState), WInv s →
      wAbs (writeTreeRecurse s t).1 = wAbs s ++ treeToBits t
      ∧ WInv (writeTreeRecurse s t).1
      ∧ (writeTreeRecurse s t).2 = (treeToBits t).length
      ∧ (writeTreeRecurse s t).1.written = s.written + (treeToBits t).length := by
  intro t
  induction t with
  | leaf v e =>
      intro s h
      obtain ⟨a1, a2, a3⟩ := writeBit_step s 1 h
      obtain ⟨b1, b2, b3⟩ := writeBit_step (writeBit s 1) (if e then 1 else 0) a2
      obtain ⟨c1, c2, c3⟩ := @writeCode_fold (bitsOfByte v) _ b2
      have hrec : writeTreeRecurse s (HTree.leaf v e)
          = (writeUInt (writeBit (writeBit s 1) (if e then 1 else 0)) v 8,
             1 + 1 + 8) := by
        rfl
      rw [hrec]
      rw [writeUInt_eq_writeCode]
      refine ⟨?_, c2, ?_, ?_⟩
      · dsimp only
        rw [c1, b1, a1, map_and_one_bitsOfByte]
        have he1 : (if e then 1 else 0) &&& 1 = (if e then 1 else 0) := by
          cases e <;> decide
        rw [he1]
        rw [treeToBits]
        simp [List.append_assoc]
      · dsimp only
        rw [treeToBits_length_leaf]
      · dsimp only
        rw [c3, b3, a3, treeToBits_length_leaf, bitsOfByte_length]
  | node lt rt ihl ihr =>
      intro s h
      obtain ⟨a1, a2, a3⟩ := writeBit_step s 0 h
      obtain ⟨l1, l2, l3, l4⟩ := ihl (writeBit s 0) a2
      obtain ⟨r1, r2, r3, r4⟩ := ihr (writeTreeRecurse (writeBit s 0) lt).1 l2
      have hrec : writeTreeRecurse s (HTree.node lt rt)
          = ((writeTreeRecurse (writeTreeRecurse (writeBit s 0) lt).1 rt).1,
             1 + (writeTreeRecurse (writeBit s 0) lt).2
               + (writeTreeRecurse (writeTreeRecurse (writeBit s 0) lt).1 rt).2) := by
        rfl
      rw [hrec]
      refine ⟨?_, r2, ?_, ?_⟩
      · dsimp only
        rw [r1, l1, a1, treeToBits]
        simp [List.append_assoc]
      · dsimp only
        rw [r3, l3, treeToBits]
        simp
        omega
      · dsimp only
        rw [r4, l4, a3, treeToBits]
        simp
        omega

/-- C10: for every strict binary tree with 8-bit leaf values (as produced by
`generateTree`), the serializer emits exactly the grammar bits
`treeToBits t` and reports exactly their count as `treeBits`; and
deserializing any bit stream that starts with those bits reconstructs a tree
equal to `t` (same shape, same leaf values, same EOB flags), consuming
exactly the reported number of bits and leaving the rest of the stream
untouched. -/
theorem C10_tree_serialization_roundtrip (t : HTree) (hval : valsLtB t = true) :
    (∀ s : WriterState, WInv s →
        wAbs (writeTreeRecurse s t).1 = wAbs s ++ treeToBits t
        ∧ (writeTreeRecurse s t).2 = (treeToBits t).length)
    ∧ (∀ (input : List Nat) (s : ReaderState) (rest : List Nat) (fuel : Nat),
        RInv input s → depthH t < fuel →
        absStream input s = treeToBits t ++ rest →
        ∃ s', readTreeRecurse input fuel s = Except.ok (t, s')
          ∧ absStream input s' = rest
          ∧ s'.consumed = s.consumed + (treeToBits t).length) := by
  constructor
  · intro s hs
    obtain ⟨h1, _, h3, _⟩ := writeTree_spec t s hs
    exact ⟨h1, h3⟩
  · intro input s rest fuel hInv hd habs
    obtain ⟨s', h1, h2, _, h4⟩ := readTree_spec t fuel s rest hval hd hInv habs
    exact ⟨s', h1, h2, h4⟩

/-- Witness for C10: the tree generated for the buffer `[65, 65]`, whose 21
serialization bits packed into bytes (with 3 padding zeros) are
`[72, 56, 0]`. -/
theorem C10_tree_serialization_roundtrip_witness :
    valsLtB (HTree.node (HTree.leaf 65 false) (HTree.leaf 0 true)) = true
    ∧ WInv clearWriter
    ∧ (wAbs (writeTreeRecurse clearWriter
          (HTree.node (HTree.leaf 65 false) (HTree.leaf 0 true))).1
        = wAbs clearWriter
          ++ treeToBits (HTree.node (HTree.leaf 65 false) (HTree.leaf 0 true))
       ∧ (writeTreeRecurse clearWriter
            (HTree.node (HTree.leaf 65 false) (HTree.leaf 0 true))).2
        = (treeToBits (HTree.node (HTree.leaf 65 false) (HTree.leaf 0 true))).length)
    ∧ RInv [72, 56, 0] clearReader
    ∧ depthH (HTree.node (HTree.leaf 65 false) (HTree.leaf 0 true)) < 5
    ∧ absStream [72, 56, 0] clearReader
        = treeToBits (HTree.node (HTree.leaf 65 false) (HTree.leaf 0 true)) ++ [0, 0, 0]
    ∧ (∃ s', readTreeRecurse [72, 56, 0] 5 clearReader
          = Except.ok (HTree.node (HTree.leaf 65 false) (HTree.leaf 0 true), s')
        ∧ absStream [72, 56, 0] s' = [0, 0, 0]
        ∧ s'.consumed = clearReader.consumed
            + (treeToBits (HTree.node (HTree.leaf 65 false) (HTree.leaf 0 true))).length) :=
  ⟨by decide, by decide,
   (C10_tree_serialization_roundtrip _ (by decide)).1 clearWriter (by decide),
   by decide, by decide, by decide,
   (C10_tree_serialization_roundtrip _ (by decide)).2 [72, 56, 0] clearReader [0, 0, 0] 5
     (by decide) (by decide) (by decide)⟩

/-! ### Claim theorems on concrete runs -/

/-- C1: the round trip `decode (encode d) = d` fails on the code.  For
`d = [65, 65]` the stream is 24 bits (21 tree bits, two 1-bit codes and the
1-bit EOB code); `writeFinish` never flushes a complete pending byte
(`bitsRemaining == 0`), so the third payload byte is dropped and decoding
the 2-byte payload returns `[65, 65, 65, 65]`, not `[65, 65]`. -/
theorem C1_roundtrip_fails_at_65_65 :
    decode 64 (encode [65, 65]) = Except.ok [65, 65, 65, 65]
    ∧ decode 64 (encode [65, 65]) ≠ Except.ok [65, 65] := by
  decide

/-- C2: `readBit` never fails with `OutOfData`: its guard reads
`input.bytesRemaining`, a property a `Buffer` does not have, so the
comparison `undefined == 0` is false and the throw is unreachable.  On an
empty input with a fresh reader (no bytes and no buffered bits remain) it
returns the bit `0` instead of failing. -/
theorem C2_readBit_never_fails :
    (∀ (input : List Nat) (s : ReaderState), ∃ r, readBit input s = Except.ok r)
    ∧ readBit [] clearReader
      = Except.ok (0, { bytesRemaining := -1, bitsRemaining := 7, bits := 0,
                        consumed := 1 }) := by
  constructor
  · intro input s
    unfold readBit inputBytesRemainingIsZero
    by_cases h : s.bitsRemaining < 1 <;> simp [h]
  · decide

/-- C3: a truncated payload does not make `decode` fail with `OutOfData`.
`encode [] = [192, 0]`; truncating the payload to `[192]` exhausts the
bitstream in the middle of the serialized tree (10 tree bits needed, 8
present), yet `decode` silently returns the empty buffer, with no error
propagated. -/
theorem C3_truncated_payload_is_silent :
    encode [] = [192, 0]
    ∧ decode 64 [192] = Except.ok []
    ∧ ∀ e, decode 64 [192] ≠ Except.error e := by
  refine ⟨by decide, by decide, ?_⟩
  intro e h
  rw [show decode 64 [192] = Except.ok [] from by decide] at h
  exact Except.noConfusion h

/-- C5: size accounting fails on the code.  After `encode [65, 65]`:
`dataBits` is still `0` (nothing after `clear()` updates it), so
`treeBits + dataBits = 21` differs from the 24 bits actually written; and
the payload is 2 bytes, not `ceil(21/8) = 3` (nor `ceil(24/8) = 3`),
because `writeFinish` drops the complete pending third byte. -/
theorem C5_size_accounting_fails :
    (encodeFull [65, 65]).treeBits = 21
    ∧ (encodeFull [65, 65]).dataBits = 0
    ∧ (encodeFull [65, 65]).bitsWritten = 24
    ∧ (encodeFull [65, 65]).payload.length = 2
    ∧ (encodeFull [65, 65]).treeBits + (encodeFull [65, 65]).dataBits
        ≠ (encodeFull [65, 65]).bitsWritten
    ∧ (encodeFull [65, 65]).payload.length
        ≠ ((encodeFull [65, 65]).treeBits + (encodeFull [65, 65]).dataBits + 7) / 8
    ∧ (encodeFull [65, 65]).payload.length
        ≠ ((encodeFull [65, 65]).bitsWritten + 7) / 8 := by
  decide

/-- C6: encoding the empty buffer writes the 10 tree bits `1 1 00000000`,
the 1-bit EOB code `0`, and 5 zero padding bits: 11 bits written, a 2-byte
payload `[0b11000000, 0b00000000]`, and decoding it returns the empty
buffer. -/
theorem C6_empty_input_scenario :
    encodeFull [] = ⟨[192, 0], 10, 0, 11⟩
    ∧ (192 : Nat) = 2 ^ 7 + 2 ^ 6
    ∧ decode 64 [192, 0] = Except.ok [] := by
  decide

/-- C9: on the well-formed payload `encode [65, 65]` the decoder does not
stop at the payload's EOB code.  The data section is 3 bits (`dataCodeBits`)
but the final byte holding its last bit was dropped by `writeFinish`; the
decode loop consumes 26 bits in total, i.e. `26 - 21 = 5` bits after the
tree instead of 3, wrapping around and re-reading payload bytes before it
happens to hit an EOB leaf. -/
theorem C9_decode_reads_past_eob :
    decodeFull 64 (encode [65, 65])
      = Except.ok ([65, 65, 65, 65],
          { bytesRemaining := 1, bitsRemaining := 6, bits := 288, consumed := 26 })
    ∧ (encodeFull [65, 65]).treeBits = 21
    ∧ dataCodeBits [65, 65] = 3
    ∧ 26 - (encodeFull [65, 65]).treeBits ≠ dataCodeBits [65, 65] := by
  decide

/-- C4, counterexample: the frequency-analysis output is NOT in
first-occurrence order.  For the buffer `[66, 65]` the code yields the
entries for 65 then 66 (ascending byte value: a JS object enumerates its
integer-like keys in ascending numeric order), while first-occurrence order
would put 66 first. -/
theorem C4_not_first_occurrence_order :
    initialEntries [66, 65]
      = [⟨HTree.leaf 65 false, 1⟩, ⟨HTree.leaf 66 false, 1⟩, ⟨HTree.leaf 0 true, 0⟩]
    ∧ firstOccurrenceEntries [66, 65]
      = [⟨HTree.leaf 66 false, 1⟩, ⟨HTree.leaf 65 false, 1⟩, ⟨HTree.leaf 0 true, 0⟩]
    ∧ initialEntries [66, 65] ≠ firstOccurrenceEntries [66, 65] := by
  decide

end Huffman

